import Mathlib

/-!
Shallow embedding of pretty_csv_diff.py: a sorted-merge diff of two CSV
tables.  Rows are lists of strings; primary keys are extracted per row by
parsing decimal fields to integers; the merge loop walks both tables with
two cursors, substituting an AlwaysGreater sentinel for an exhausted side.
Python comparison of an int with a str raises TypeError, so the comparison
functions are Except-valued; Python equality of int and str is False and
never raises, so equality is Bool-valued.
-/

namespace PrettyCsvDiff

/-- A scalar key component as produced by `_get_pk`:
`int(row[k])` when the field text is decimal, otherwise the text itself. -/
inductive PyScalar where
  | pint (n : Nat)
  | pstr (s : String)
deriving DecidableEq

/-- An element of a merge key: either a real scalar or the `AlwaysGreater`
sentinel object used for an exhausted cursor. -/
inductive KElem where
  | scalar (v : PyScalar)
  | ag
deriving DecidableEq

/-- Python `==` between key elements.  int-vs-str is `False` (no error);
`AlwaysGreater.__eq__` returns `False` for every argument, including
another `AlwaysGreater`. -/
def keq : KElem → KElem → Bool
  | .scalar (.pint m), .scalar (.pint n) => m == n
  | .scalar (.pstr s), .scalar (.pstr t) => s == t
  | _, _ => false

/-- Python `<` between key elements.  int-vs-str raises TypeError
(modelled as `.error ()`).  `AlwaysGreater.__lt__` returns `False`;
`v < AlwaysGreater()` falls back to the reflected `AlwaysGreater.__gt__`,
which returns `True` for a non-sentinel argument. -/
def kLt : KElem → KElem → Except Unit Bool
  | .scalar (.pint m), .scalar (.pint n) => .ok (decide (m < n))
  | .scalar (.pstr s), .scalar (.pstr t) => .ok (decide (s < t))
  | .scalar _, .scalar _ => .error ()
  | .ag, _ => .ok false
  | .scalar _, .ag => .ok true

/-- Python `>` between key elements, mirroring `kLt`.
`AlwaysGreater.__gt__` checks `isinstance(other, AlwaysGreater)` and is
`False` exactly there; `v > AlwaysGreater()` uses the reflected
`AlwaysGreater.__lt__`, which is `False`. -/
def kGt : KElem → KElem → Except Unit Bool
  | .scalar (.pint m), .scalar (.pint n) => .ok (decide (n < m))
  | .scalar (.pstr s), .scalar (.pstr t) => .ok (decide (t < s))
  | .scalar _, .scalar _ => .error ()
  | .ag, .ag => .ok false
  | .ag, .scalar _ => .ok true
  | .scalar _, .ag => .ok false

/-- Python list `==` on keys: lengths must match and elements compare
equal pairwise; never raises. -/
def listEq : List KElem → List KElem → Bool
  | [], [] => true
  | a :: as, b :: bs => keq a b && listEq as bs
  | _, _ => false

/-- Python list `<` on keys: skip `==`-equal prefixes, decide at the first
differing position with element `<` (which may raise), and compare lengths
when one list is a prefix of the other. -/
def listLt : List KElem → List KElem → Except Unit Bool
  | [], [] => .ok false
  | [], _ :: _ => .ok true
  | _ :: _, [] => .ok false
  | a :: as, b :: bs => if keq a b then listLt as bs else kLt a b

/-- Python list `>` on keys, mirroring `listLt`. -/
def listGt : List KElem → List KElem → Except Unit Bool
  | [], [] => .ok false
  | [], _ :: _ => .ok false
  | _ :: _, [] => .ok true
  | a :: as, b :: bs => if keq a b then listGt as bs else kGt a b

/-- Python `str.isdecimal` restricted to ASCII digits: nonempty and all
characters decimal digits (stated over the character list of the string). -/
def pyIsDecimal (s : String) : Bool := !s.data.isEmpty && s.data.all Char.isDigit

/-- Python `int(s)` on a decimal numeral. -/
def pyInt (s : String) : Nat := s.data.foldl (fun n c => n * 10 + (c.toNat - 48)) 0

/-- `_get_pk`: the typed key of a row, one scalar per resolved primary-key
column index (out-of-range indexing is a caller error per the source's
assumptions; modelled with a default). -/
def getPk (pks : List Nat) (row : List String) : List PyScalar :=
  pks.map fun k =>
    let t := row.getD k ""
    if pyIsDecimal t then .pint (pyInt t) else .pstr t

/-- A real key, injected into merge-key elements. -/
def realKey (pks : List Nat) (row : List String) : List KElem :=
  (getPk pks row).map .scalar

/-- `[AlwaysGreater()]`, the key used for an exhausted cursor. -/
def sentinelKey : List KElem := [.ag]

/-- Whether every element of a key is a real scalar. -/
def isRealKey (k : List KElem) : Bool :=
  k.all fun e => match e with | .scalar _ => true | .ag => false

/-- The key compared at cursor position `i` of a table: the row's real key
in bounds, the sentinel past the end (lines 83-84 of the source). -/
def keyAt (pks : List Nat) (data : List (List String)) (i : Nat) : List KElem :=
  if i < data.length then realKey pks (data.getD i []) else sentinelKey

/-- Lines 86-88 of the source, in Python evaluation order: `pk_a < pk_b`
first (its TypeError surfaces first), then `pk_a > pk_b`, then `==`. -/
def classify (ka kb : List KElem) : Except Unit (Bool × Bool × Bool) :=
  match listLt ka kb with
  | .error e => .error e
  | .ok la =>
    match listGt ka kb with
    | .error e => .error e
    | .ok ga => .ok (la, ga, listEq ka kb)

/-- ANSI bold. -/
def BOLD : String := "\x1b[1m"
/-- ANSI red background, the left-row highlight. -/
def RED : String := "\x1b[41m"
/-- ANSI green background, the right-row highlight. -/
def GREEN : String := "\x1b[42m"
/-- ANSI reset. -/
def RESET : String := "\x1b[0m"

/-- `' ' * n`. -/
def spaces (n : Nat) : String := String.mk (List.replicate n ' ')

/-- The `colorize` closure of `_formatted`: styling prefix, the field
text, space padding to the column width, and a reset when styled.
`not diff` is true in Python for both `None` and the empty list. -/
def colorize (pks : List Nat) (maxlen : List Nat) (pre : Char) (row : List String)
    (diff : Option (List Bool)) (k : Nat) : String :=
  let hl : Bool := (pre == '<' || pre == '>') &&
    (match diff with
     | none => true
     | some d => d.isEmpty || d.getD k false)
  let sgr := (if hl then (if pre == '<' then RED else GREEN) else "") ++
    (if pks.contains k then BOLD else "")
  let padding := spaces (maxlen.getD k 0 - (row.getD k "").length)
  sgr ++ row.getD k "" ++ padding ++ (if sgr = "" then "" else RESET)

/-- `_formatted`: the marker character followed by one colorized cell per
field of the row. -/
def formatted (pks : List Nat) (maxlen : List Nat) (pre : Char) (row : List String)
    (diff : Option (List Bool)) : Char × List String :=
  (pre, (List.range row.length).map (colorize pks maxlen pre row diff))

/-- A raw yield of the generator `do`, before `_formatted` is applied:
the marker, the row of field texts, and the optional diff vector. -/
structure Ev where
  pre : Char
  row : List String
  diff : Option (List Bool)
deriving DecidableEq

/-- Line 91: per-column inequality flags of a matched pair (`zip`
truncates to the shorter row). -/
def rowDiff (ra rb : List String) : List Bool :=
  (List.zip ra rb).map fun p => p.1 != p.2

/-- Line 92: `diff and any(diff)` as a boolean: falsy for `None` and for
the empty list, otherwise `any`. -/
def diffAb : Option (List Bool) → Bool
  | none => false
  | some l => l.any id

/-- The dashed separator row, `['-' * n for n in self._maxlen]`. -/
def sepRow (maxlen : List Nat) : List String :=
  maxlen.map fun n => String.mk (List.replicate n '-')

/-- The state carried out of one iteration of the merge loop: the events
yielded during the iteration and the updated cursors and `previous`. -/
structure StepOut where
  evs : List Ev
  i : Nat
  j : Nat
  prev : Option (Bool × Bool)
deriving DecidableEq

/-- The body of one iteration of the `while` loop of `do` after the key
classification (lines 90-109): compute the diff vector for a match,
decide the separator, and emit/advance per side. -/
def stepBody (_pks maxlen : List Nat) (A B : List (List String))
    (i j : Nat) (previous : Option (Bool × Bool))
    (nextA nextB nextAB : Bool) : StepOut :=
  let diff : Option (List Bool) :=
    if nextAB then some (rowDiff (A.getD i []) (B.getD j [])) else none
  let dAB := diffAb diff
  let current := (nextA, nextB)
  let sep := ((nextA || nextB) && !(decide (previous = some current))) || dAB
  let sepEvs := if sep then [Ev.mk ' ' (sepRow maxlen) none] else []
  let prev1 := if sep then some current else previous
  let leftEvs := if nextA || nextAB then
      (if nextA || dAB then [Ev.mk '<' (A.getD i []) diff] else []) else []
  let i1 := if nextA || nextAB then i + 1 else i
  let rightEvs := if nextB || nextAB then
      (if nextB || dAB then [Ev.mk '>' (B.getD j []) diff] else []) else []
  let j1 := if nextB || nextAB then j + 1 else j
  ⟨sepEvs ++ leftEvs ++ rightEvs, i1, j1, prev1⟩

/-- One iteration of the `while` loop of `do` (lines 82-109): classify
the keys at the cursors (propagating a TypeError), then run the body. -/
def stepOf (pks maxlen : List Nat) (A B : List (List String))
    (i j : Nat) (previous : Option (Bool × Bool)) : Except Unit StepOut :=
  match classify (keyAt pks A i) (keyAt pks B j) with
  | .error e => .error e
  | .ok (nextA, nextB, nextAB) =>
    .ok (stepBody pks maxlen A B i j previous nextA nextB nextAB)

/-- The `while i < len(self._data_a) or j < len(self._data_b)` loop,
instrumented with fuel (the Python loop has no bound of its own) and
returning the events together with the final cursor values. -/
def mergeLoop (pks maxlen : List Nat) (A B : List (List String)) :
    Nat → Nat → Nat → Option (Bool × Bool) → Except Unit (List Ev × Nat × Nat)
  | fuel, i, j, previous =>
    if i < A.length ∨ j < B.length then
      match fuel with
      | 0 => .error ()
      | fuel' + 1 =>
        match stepOf pks maxlen A B i j previous with
        | .error e => .error e
        | .ok s =>
          match mergeLoop pks maxlen A B fuel' s.i s.j s.prev with
          | .error e => .error e
          | .ok (rest, fi, fj) => .ok (s.evs ++ rest, fi, fj)
    else .ok ([], i, j)

/-- The raw event sequence of `do`: the header yield followed by the
merge-loop yields, with enough fuel for the loop's real termination. -/
def doEvents (header : List String) (pks maxlen : List Nat)
    (A B : List (List String)) : Except Unit (List Ev) :=
  match mergeLoop pks maxlen A B (A.length + B.length) 0 0 none with
  | .error e => .error e
  | .ok (evs, _, _) => .ok (Ev.mk ' ' header none :: evs)

/-- Line 34 onward of `_read`: per-column maximum length over the header
of the first table and every row of both tables, accumulated with
`zip`/`max` exactly as the source does. -/
def computeMaxlen (header : List String) (A B : List (List String)) : List Nat :=
  (A ++ B).foldl (fun acc row => List.zipWith max (row.map String.length) acc)
    (header.map String.length)

/-- `self._header.index(pk)`: first index of a name, ValueError
(modelled as `.error ()`) when absent. -/
def headerIndex (header : List String) (name : String) : Except Unit Nat :=
  match header.findIdx? (fun s => s == name) with
  | some k => .ok k
  | none => .error ()

/-- Line 35 of `_read`, one entry: a decimal spec entry is taken as a
zero-based index, anything else is resolved as a name against the header. -/
def resolvePk (header : List String) (pk : String) : Except Unit Nat :=
  if pyIsDecimal pk then .ok (pyInt pk) else headerIndex header pk

/-- Line 35 of `_read`: resolve all primary-key spec entries. -/
def resolvePks (header : List String) (pks : List String) : Except Unit (List Nat) :=
  pks.mapM (resolvePk header)

/-- The whole run on already-sorted tables: resolve the primary-key spec
against the header first (as `_read` of the first table does, before any
diffing), compute the shared widths, then format each raw event of `do`. -/
def pcdRun (header : List String) (pkSpec : List String)
    (A B : List (List String)) : Except Unit (List (Char × List String)) :=
  match resolvePks header pkSpec with
  | .error e => .error e
  | .ok pks =>
    let maxlen := computeMaxlen header A B
    match doEvents header pks maxlen A B with
    | .error e => .error e
    | .ok evs => .ok (evs.map fun e => formatted pks maxlen e.pre e.row e.diff)

/-- The claim's order on keys: strictly below, or equal, under the
program's comparison. -/
def pkLe (ka kb : List KElem) : Prop := listLt ka kb = .ok true ∨ listEq ka kb = true

/-- Data events are the left- and right-marked rows. -/
def isDataEv (e : Ev) : Bool := e.pre == '<' || e.pre == '>'

/-- Keys of the emitted data rows, in emission order, header and
separator events ignored. -/
def emittedKeys (pks : List Nat) (evs : List Ev) : List (List KElem) :=
  (evs.filter isDataEv).map fun e => realKey pks e.row

/-- Sortedness of a loaded table, as established by `_read`'s sort. -/
def sortedByPk (pks : List Nat) (data : List (List String)) : Prop :=
  List.Chain' pkLe (data.map (realKey pks))

/-- Every key of `A` is comparable with every key of `B` (the loop's
cross-table comparisons raise no TypeError). -/
def keysComparable (pks : List Nat) (A B : List (List String)) : Prop :=
  ∀ ra ∈ A, ∀ rb ∈ B,
    ∃ r, classify (realKey pks ra) (realKey pks rb) = Except.ok r

instance {α : Type} [DecidableEq α] : DecidableEq (Except Unit α) := fun a b =>
  match a, b with
  | .error (), .error () => isTrue rfl
  | .ok x, .ok y =>
    if h : x = y then isTrue (by rw [h])
    else isFalse (fun he => h (Except.ok.inj he))
  | .ok _, .error _ => isFalse (fun he => Except.noConfusion he)
  | .error _, .ok _ => isFalse (fun he => Except.noConfusion he)

instance : DecidableRel pkLe := fun a b =>
  inferInstanceAs (Decidable (listLt a b = .ok true ∨ listEq a b = true))

instance (pks : List Nat) (data : List (List String)) :
    Decidable (sortedByPk pks data) :=
  inferInstanceAs (Decidable (List.Chain' pkLe (data.map (realKey pks))))

instance (pks : List Nat) (A B : List (List String)) :
    Decidable (keysComparable pks A B) :=
  inferInstanceAs (Decidable (∀ ra ∈ A, ∀ rb ∈ B,
    ∃ r, classify (realKey pks ra) (realKey pks rb) = Except.ok r))

/-! ### Basic facts about element comparison -/

theorem keq_eq : ∀ {x y : KElem}, keq x y = true → x = y
  | .scalar (.pint m), .scalar (.pint n), h => by
      simp only [keq, beq_iff_eq] at h; rw [h]
  | .scalar (.pint _), .scalar (.pstr _), h => by simp [keq] at h
  | .scalar (.pstr _), .scalar (.pint _), h => by simp [keq] at h
  | .scalar (.pstr s), .scalar (.pstr t), h => by
      simp only [keq, beq_iff_eq] at h; rw [h]
  | .scalar (.pint _), .ag, h => by simp [keq] at h
  | .scalar (.pstr _), .ag, h => by simp [keq] at h
  | .ag, .scalar (.pint _), h => by simp [keq] at h
  | .ag, .scalar (.pstr _), h => by simp [keq] at h
  | .ag, .ag, h => by simp [keq] at h

theorem keq_refl (v : PyScalar) : keq (.scalar v) (.scalar v) = true := by
  cases v <;> simp [keq]

theorem keq_symm : ∀ (x y : KElem), keq x y = keq y x
  | .scalar (.pint m), .scalar (.pint n) => by
      by_cases h : m = n
      · rw [h]
      · have h2 : n ≠ m := fun hh => h hh.symm
        simp [keq, h, h2]
  | .scalar (.pint _), .scalar (.pstr _) => by simp [keq]
  | .scalar (.pstr _), .scalar (.pint _) => by simp [keq]
  | .scalar (.pstr s), .scalar (.pstr t) => by
      by_cases h : s = t
      · rw [h]
      · have h2 : t ≠ s := fun hh => h hh.symm
        simp [keq, h, h2]
  | .scalar (.pint _), .ag => by simp [keq]
  | .scalar (.pstr _), .ag => by simp [keq]
  | .ag, .scalar (.pint _) => by simp [keq]
  | .ag, .scalar (.pstr _) => by simp [keq]
  | .ag, .ag => rfl

theorem keq_ag_left (y : KElem) : keq .ag y = false := by
  cases y with
  | scalar v => cases v <;> rfl
  | ag => rfl

theorem keq_ag_right (x : KElem) : keq x .ag = false := by
  cases x with
  | scalar v => cases v <;> rfl
  | ag => rfl

theorem kGt_swap : ∀ (x y : KElem), kGt x y = kLt y x
  | .scalar (.pint _), .scalar (.pint _) => rfl
  | .scalar (.pint _), .scalar (.pstr _) => rfl
  | .scalar (.pstr _), .scalar (.pint _) => rfl
  | .scalar (.pstr _), .scalar (.pstr _) => rfl
  | .scalar (.pint _), .ag => rfl
  | .scalar (.pstr _), .ag => rfl
  | .ag, .scalar (.pint _) => rfl
  | .ag, .scalar (.pstr _) => rfl
  | .ag, .ag => rfl

/-! ### Basic facts about list (key) comparison -/

theorem listEq_eq : ∀ {a b : List KElem}, listEq a b = true → a = b
  | [], [], _ => rfl
  | [], _ :: _, h => by simp [listEq] at h
  | _ :: _, [], h => by simp [listEq] at h
  | x :: xs, y :: ys, h => by
      simp only [listEq, Bool.and_eq_true] at h
      rw [keq_eq h.1, listEq_eq h.2]

theorem listEq_refl_real : ∀ {k : List KElem}, isRealKey k = true → listEq k k = true
  | [], _ => rfl
  | e :: k, h => by
      simp only [isRealKey, List.all_cons, Bool.and_eq_true] at h
      cases e with
      | scalar v =>
        simp only [listEq, keq_refl, Bool.true_and]
        exact listEq_refl_real h.2
      | ag => simp at h

theorem listLt_self_real : ∀ {k : List KElem}, isRealKey k = true → listLt k k = .ok false
  | [], _ => rfl
  | e :: k, h => by
      simp only [isRealKey, List.all_cons, Bool.and_eq_true] at h
      cases e with
      | scalar v =>
        simp only [listLt, keq_refl, if_true]
        exact listLt_self_real h.2
      | ag => simp at h

theorem listGt_swap : ∀ (a b : List KElem), listGt a b = listLt b a
  | [], [] => rfl
  | [], _ :: _ => rfl
  | _ :: _, [] => rfl
  | x :: xs, y :: ys => by
      simp only [listGt, listLt, keq_symm x y]
      by_cases h : keq y x = true
      · rw [if_pos h, if_pos h, listGt_swap]
      · rw [if_neg h, if_neg h, kGt_swap]

theorem listLt_sentinel_left : ∀ (k : List KElem), listLt sentinelKey k = .ok false
  | [] => rfl
  | e :: _ => by
      simp only [sentinelKey, listLt, keq_ag_left, if_neg (Bool.false_ne_true)]
      rfl

theorem listEq_sentinel_left : ∀ (k : List KElem), listEq sentinelKey k = false
  | [] => rfl
  | e :: _ => by simp [sentinelKey, listEq, keq_ag_left]

theorem listGt_sentinel_left_real {k : List KElem} (h : isRealKey k = true) :
    listGt sentinelKey k = .ok true := by
  cases k with
  | nil => rfl
  | cons e k =>
    simp only [isRealKey, List.all_cons, Bool.and_eq_true] at h
    cases e with
    | scalar v =>
      simp only [sentinelKey, listGt, keq_ag_left, if_neg (Bool.false_ne_true)]
      cases v <;> rfl
    | ag => simp at h

theorem listLt_real_sentinel {k : List KElem} (h : isRealKey k = true) :
    listLt k sentinelKey = .ok true := by
  cases k with
  | nil => rfl
  | cons e k =>
    simp only [isRealKey, List.all_cons, Bool.and_eq_true] at h
    cases e with
    | scalar v =>
      simp only [sentinelKey, listLt, keq_ag_right, if_neg (Bool.false_ne_true)]
      cases v <;> rfl
    | ag => simp at h

theorem listEq_real_sentinel {k : List KElem} (h : isRealKey k = true) :
    listEq k sentinelKey = false := by
  cases k with
  | nil => rfl
  | cons e k => simp [listEq, keq_ag_right]

theorem realKey_isReal (pks : List Nat) (row : List String) :
    isRealKey (realKey pks row) = true := by
  unfold isRealKey realKey
  apply List.all_eq_true.mpr
  intro v hv
  obtain ⟨w, _, h⟩ := List.mem_map.mp hv
  rw [← h]

theorem isRealKey_exists : ∀ {k : List KElem}, isRealKey k = true →
    ∃ xs : List PyScalar, k = xs.map .scalar
  | [], _ => ⟨[], rfl⟩
  | e :: k, h => by
      simp only [isRealKey, List.all_cons, Bool.and_eq_true] at h
      cases e with
      | scalar v =>
        obtain ⟨xs, hxs⟩ := isRealKey_exists h.2
        exact ⟨v :: xs, by rw [List.map_cons, hxs]⟩
      | ag => simp at h

/-! ### Decomposition of `classify` -/

theorem classify_ok {ka kb : List KElem} {la ga ea : Bool}
    (hc : classify ka kb = .ok (la, ga, ea)) :
    listLt ka kb = .ok la ∧ listGt ka kb = .ok ga ∧ listEq ka kb = ea := by
  unfold classify at hc
  cases hlt : listLt ka kb with
  | error e => rw [hlt] at hc; simp at hc
  | ok l =>
    rw [hlt] at hc
    cases hgt : listGt ka kb with
    | error e => rw [hgt] at hc; simp at hc
    | ok g =>
      rw [hgt] at hc
      simp only [Except.ok.injEq, Prod.mk.injEq] at hc
      obtain ⟨h1, h2, h3⟩ := hc
      exact ⟨by rw [h1], by rw [h2], h3⟩

theorem classify_intro {ka kb : List KElem} {la ga : Bool}
    (hlt : listLt ka kb = .ok la) (hgt : listGt ka kb = .ok ga) :
    classify ka kb = .ok (la, ga, listEq ka kb) := by
  unfold classify
  rw [hlt, hgt]

/-- Trichotomy of `classify` on two real keys, whenever it succeeds. -/
theorem classify_real_tri : ∀ (xs ys : List PyScalar) {la ga ea : Bool},
    classify (xs.map .scalar) (ys.map .scalar) = .ok (la, ga, ea) →
    la.toNat + ga.toNat + ea.toNat = 1
  | [], [], la, ga, ea, hc => by
      obtain ⟨hlt, hgt, heq⟩ := classify_ok hc
      simp only [List.map_nil, listLt, listGt, listEq, Except.ok.injEq] at hlt hgt heq
      rw [← hlt, ← hgt, ← heq]
      rfl
  | [], _ :: _, la, ga, ea, hc => by
      obtain ⟨hlt, hgt, heq⟩ := classify_ok hc
      simp only [List.map_nil, List.map_cons, listLt, listGt, listEq,
        Except.ok.injEq] at hlt hgt heq
      rw [← hlt, ← hgt, ← heq]
      rfl
  | _ :: _, [], la, ga, ea, hc => by
      obtain ⟨hlt, hgt, heq⟩ := classify_ok hc
      simp only [List.map_nil, List.map_cons, listLt, listGt, listEq,
        Except.ok.injEq] at hlt hgt heq
      rw [← hlt, ← hgt, ← heq]
      rfl
  | x :: xs, y :: ys, la, ga, ea, hc => by
      obtain ⟨hlt, hgt, heq⟩ := classify_ok hc
      simp only [List.map_cons] at hlt hgt heq
      by_cases hk : keq (.scalar x) (.scalar y) = true
      · simp only [listLt, listGt, listEq, hk, if_true, Bool.true_and] at hlt hgt heq
        have hctail : classify (xs.map .scalar) (ys.map .scalar) = .ok (la, ga, ea) := by
          rw [classify_intro hlt hgt, heq]
        exact classify_real_tri xs ys hctail
      · rw [Bool.not_eq_true] at hk
        simp only [listLt, listGt, listEq, hk, Bool.false_eq_true, if_false,
          Bool.false_and] at hlt hgt heq
        cases x with
        | pint m =>
          cases y with
          | pint n =>
            have hmn : m ≠ n := by simpa [keq] using hk
            simp only [kLt, kGt, Except.ok.injEq] at hlt hgt
            rw [← hlt, ← hgt, ← heq]
            rcases Nat.lt_trichotomy m n with h | h | h
            · simp [h, Nat.lt_asymm h]
            · exact absurd h hmn
            · simp [h, Nat.lt_asymm h]
          | pstr t => simp [kLt] at hlt
        | pstr s =>
          cases y with
          | pint n => simp [kLt] at hlt
          | pstr t =>
            have hst : s ≠ t := by simpa [keq] using hk
            simp only [kLt, kGt, Except.ok.injEq] at hlt hgt
            rw [← hlt, ← hgt, ← heq]
            rcases lt_trichotomy s t with h | h | h
            · simp [h, lt_asymm h]
            · exact absurd h hst
            · simp [h, lt_asymm h]

/-- Exactly-one helper: successful classification of loop keys (real or
sentinel, not both sentinel) selects exactly one direction. -/
theorem classify_loop_exactly_one (ka kb : List KElem) (la ga ea : Bool)
    (hka : isRealKey ka = true ∨ ka = sentinelKey)
    (hkb : isRealKey kb = true ∨ kb = sentinelKey)
    (hne : ¬(ka = sentinelKey ∧ kb = sentinelKey))
    (hc : classify ka kb = .ok (la, ga, ea)) :
    la.toNat + ga.toNat + ea.toNat = 1 := by
  rcases hka with hka | hka
  · rcases hkb with hkb | hkb
    · obtain ⟨xs, rfl⟩ := isRealKey_exists hka
      obtain ⟨ys, rfl⟩ := isRealKey_exists hkb
      exact classify_real_tri xs ys hc
    · subst hkb
      obtain ⟨hlt, hgt, heq⟩ := classify_ok hc
      rw [listLt_real_sentinel hka] at hlt
      rw [listGt_swap, listLt_sentinel_left] at hgt
      rw [listEq_real_sentinel hka] at heq
      simp only [Except.ok.injEq] at hlt hgt
      rw [← hlt, ← hgt, ← heq]
      rfl
  · subst hka
    rcases hkb with hkb | hkb
    · obtain ⟨hlt, hgt, heq⟩ := classify_ok hc
      rw [listLt_sentinel_left] at hlt
      rw [listGt_sentinel_left_real hkb] at hgt
      rw [listEq_sentinel_left] at heq
      simp only [Except.ok.injEq] at hlt hgt
      rw [← hlt, ← hgt, ← heq]
      rfl
    · exact absurd ⟨rfl, hkb⟩ hne

/-- C1, amended half: whenever the key classification of a merge step
succeeds and the keys are loop keys not both sentinels, exactly one of
goesA, goesB, matched holds. -/
theorem classification_exactly_one (ka kb : List KElem) (la ga ea : Bool)
    (hka : isRealKey ka = true ∨ ka = sentinelKey)
    (hkb : isRealKey kb = true ∨ kb = sentinelKey)
    (hne : ¬(ka = sentinelKey ∧ kb = sentinelKey))
    (hc : classify ka kb = .ok (la, ga, ea)) :
    la.toNat + ga.toNat + ea.toNat = 1 :=
  classify_loop_exactly_one ka kb la ga ea hka hkb hne hc

/-- C1, refuted half: comparing a key whose component parsed as an
integer against one that stayed text raises TypeError (Python 3), so
classification is not total: here key "1" of the left table meets key
"a" of the right table. -/
theorem classification_not_total :
    classify (realKey [0] ["1"]) (realKey [0] ["a"]) = .error () := by decide

/-- Closed witness for `classification_exactly_one` at keys 1 and 2. -/
theorem classification_exactly_one_witness :
    (true : Bool).toNat + (false : Bool).toNat + (false : Bool).toNat = 1 :=
  classification_exactly_one
    [.scalar (.pint 1)] [.scalar (.pint 2)] true false false
    (Or.inl (by decide)) (Or.inl (by decide)) (by decide) (by decide)

/-- C2, amended: the sentinel key compares greater (and not less) than
every real key, and two sentinel keys compare neither greater nor less
to each other; however the equality comparison between two sentinels
returns False as well (`AlwaysGreater.__eq__` is unconditionally False),
so sentinels do not compare equal under `==`. -/
theorem sentinel_key_comparisons (ks : List KElem) (hk : isRealKey ks = true) :
    listGt sentinelKey ks = .ok true ∧ listLt sentinelKey ks = .ok false ∧
    listGt sentinelKey sentinelKey = .ok false ∧
    listLt sentinelKey sentinelKey = .ok false ∧
    listEq sentinelKey sentinelKey = false :=
  ⟨listGt_sentinel_left_real hk, listLt_sentinel_left ks, by decide, by decide, by decide⟩

/-- C2, refuted part: two sentinel keys do not compare equal. -/
theorem sentinel_not_equal : listEq sentinelKey sentinelKey = false := by decide

/-- Closed witness for `sentinel_key_comparisons` at the real key of row
["z"]. -/
theorem sentinel_key_comparisons_witness :
    listGt sentinelKey (realKey [0] ["z"]) = .ok true ∧
    listLt sentinelKey (realKey [0] ["z"]) = .ok false ∧
    listGt sentinelKey sentinelKey = .ok false ∧
    listLt sentinelKey sentinelKey = .ok false ∧
    listEq sentinelKey sentinelKey = false :=
  sentinel_key_comparisons (realKey [0] ["z"]) (by decide)

/-! ### Primary-key resolution (C9, C10) -/

theorem resolvePks_error {header : List String} :
    ∀ {pkSpec : List String} {name : String}, name ∈ pkSpec →
      resolvePk header name = .error () →
      resolvePks header pkSpec = .error ()
  | [], name, hmem, _ => absurd hmem (List.not_mem_nil name)
  | a :: l, name, hmem, herr => by
      unfold resolvePks
      rw [List.mapM_cons]
      rcases List.mem_cons.mp hmem with rfl | hmem2
      · rw [herr]
        rfl
      · cases hfa : resolvePk header a with
        | error e => cases e; rfl
        | ok v =>
          have ih := resolvePks_error hmem2 herr
          unfold resolvePks at ih
          rw [ih]
          rfl

/-- C9: a non-decimal primary-key spec entry that does not occur in the
header makes the whole computation fail at load time: the run is an
error and produces no diff events. -/
theorem named_pk_missing_fails (header pkSpec : List String) (A B : List (List String))
    (name : String) (hmem : name ∈ pkSpec) (hdec : pyIsDecimal name = false)
    (hnot : name ∉ header) :
    pcdRun header pkSpec A B = .error () := by
  have hres : resolvePk header name = .error () := by
    unfold resolvePk headerIndex
    rw [if_neg (by rw [hdec]; exact Bool.false_ne_true)]
    have hfind : header.findIdx? (fun s => s == name) = none := by
      rw [List.findIdx?_eq_none_iff]
      intro x hx
      by_cases hxe : x = name
      · exact absurd (hxe ▸ hx) hnot
      · simp [hxe]
    rw [hfind]
  unfold pcdRun
  rw [resolvePks_error hmem hres]

/-- Closed witness for `named_pk_missing_fails`: key column "id" is not
in header ["k"]. -/
theorem named_pk_missing_fails_witness :
    pcdRun ["k"] ["id"] [["1"]] [["2"]] = .error () :=
  named_pk_missing_fails ["k"] ["id"] [["1"]] [["2"]] "id"
    (by decide) (by decide) (by decide)

/-- C10: a primary-key spec entry consisting entirely of decimal digits
is interpreted as a zero-based column index: it resolves to its numeric
value, independently of the header, so it is never matched against
header names (a purely numeric header name cannot be selected by name). -/
theorem decimal_pk_is_index (header other : List String) (pk : String)
    (h : pyIsDecimal pk = true) :
    resolvePk header pk = .ok (pyInt pk) ∧
    resolvePk header pk = resolvePk other pk := by
  unfold resolvePk
  rw [if_pos h, if_pos h]
  exact ⟨rfl, rfl⟩

/-- Closed witness for `decimal_pk_is_index`: the spec entry "1" selects
column index 1 even though "1" occurs as a header name at index 0. -/
theorem decimal_pk_is_index_witness :
    resolvePk ["1", "v"] "1" = .ok 1 ∧
    resolvePk ["1", "v"] "1" = resolvePk ["x", "y"] "1" :=
  decimal_pk_is_index ["1", "v"] ["x", "y"] "1" (by decide)

/-! ### Step and loop unfolding -/

theorem stepOf_ok {pks maxlen : List Nat} {A B : List (List String)}
    {i j : Nat} {prev : Option (Bool × Bool)} {la ga ea : Bool}
    (hc : classify (keyAt pks A i) (keyAt pks B j) = .ok (la, ga, ea)) :
    stepOf pks maxlen A B i j prev = .ok (stepBody pks maxlen A B i j prev la ga ea) := by
  unfold stepOf
  rw [hc]

theorem stepOf_error {pks maxlen : List Nat} {A B : List (List String)}
    {i j : Nat} {prev : Option (Bool × Bool)}
    (hc : classify (keyAt pks A i) (keyAt pks B j) = .error ()) :
    stepOf pks maxlen A B i j prev = .error () := by
  unfold stepOf
  rw [hc]

theorem mergeLoop_stop {pks maxlen : List Nat} {A B : List (List String)}
    {fuel i j : Nat} {prev : Option (Bool × Bool)}
    (h : ¬(i < A.length ∨ j < B.length)) :
    mergeLoop pks maxlen A B fuel i j prev = .ok ([], i, j) := by
  unfold mergeLoop
  rw [if_neg h]

theorem mergeLoop_go {pks maxlen : List Nat} {A B : List (List String)}
    {fuel i j : Nat} {prev : Option (Bool × Bool)}
    (h : i < A.length ∨ j < B.length) :
    mergeLoop pks maxlen A B (fuel + 1) i j prev =
      match stepOf pks maxlen A B i j prev with
      | .error e => .error e
      | .ok s =>
        match mergeLoop pks maxlen A B fuel s.i s.j s.prev with
        | .error e => .error e
        | .ok (rest, fi, fj) => .ok (s.evs ++ rest, fi, fj) := by
  conv_lhs => rw [mergeLoop]
  rw [if_pos h]

theorem keyAt_in {pks : List Nat} {data : List (List String)} {i : Nat}
    (h : i < data.length) : keyAt pks data i = realKey pks (data.getD i []) := by
  unfold keyAt
  rw [if_pos h]

theorem keyAt_out {pks : List Nat} {data : List (List String)} {i : Nat}
    (h : ¬i < data.length) : keyAt pks data i = sentinelKey := by
  unfold keyAt
  rw [if_neg h]

theorem keyAt_shape (pks : List Nat) (data : List (List String)) (i : Nat) :
    isRealKey (keyAt pks data i) = true ∨ keyAt pks data i = sentinelKey := by
  unfold keyAt
  by_cases h : i < data.length
  · rw [if_pos h]
    exact Or.inl (realKey_isReal pks (data.getD i []))
  · rw [if_neg h]
    exact Or.inr rfl

theorem realKey_ne_sentinel (pks : List Nat) (row : List String) :
    realKey pks row ≠ sentinelKey := by
  unfold realKey sentinelKey
  intro h
  cases hg : getPk pks row with
  | nil => rw [hg] at h; exact List.noConfusion h
  | cons v l =>
    rw [hg, List.map_cons] at h
    have h2 := List.head_eq_of_cons_eq h
    exact KElem.noConfusion h2

theorem rowDiff_self_any : ∀ (r : List String), (rowDiff r r).any id = false
  | [] => rfl
  | a :: l => by
      simp only [rowDiff, List.zip_cons_cons, List.map_cons, List.any_cons, id_eq,
        bne_self_eq_false, Bool.false_or]
      exact rowDiff_self_any l

/-- The merge loop on two identical tables just advances both cursors to
the end, emitting nothing. -/
theorem mergeLoop_identical (pks maxlen : List Nat) (A : List (List String)) :
    ∀ (fuel i : Nat) (prev : Option (Bool × Bool)),
      A.length ≤ fuel + i → i ≤ A.length →
      mergeLoop pks maxlen A A fuel i i prev = .ok ([], A.length, A.length)
  | 0, i, prev, hfuel, hle => by
      have hi : i = A.length := by omega
      subst hi
      rw [mergeLoop_stop (by omega)]
  | fuel + 1, i, prev, hfuel, hle => by
      by_cases hi : i < A.length
      · have hkey : keyAt pks A i = realKey pks (A.getD i []) := keyAt_in hi
        have hreal := realKey_isReal pks (A.getD i [])
        have hc : classify (keyAt pks A i) (keyAt pks A i) = .ok (false, false, true) := by
          have h1 : listLt (keyAt pks A i) (keyAt pks A i) = .ok false := by
            rw [hkey]; exact listLt_self_real hreal
          have h2 : listGt (keyAt pks A i) (keyAt pks A i) = .ok false := by
            rw [listGt_swap, hkey]; exact listLt_self_real hreal
          have h3 : listEq (keyAt pks A i) (keyAt pks A i) = true := by
            rw [hkey]; exact listEq_refl_real hreal
          rw [classify_intro h1 h2, h3]
        rw [mergeLoop_go (Or.inl hi), stepOf_ok hc]
        have hbody : stepBody pks maxlen A A i i prev false false true =
            ⟨[], i + 1, i + 1, prev⟩ := by
          simp [stepBody, diffAb, rowDiff_self_any]
        rw [hbody]
        simp [mergeLoop_identical pks maxlen A fuel (i + 1) prev (by omega) (by omega)]
      · have hi2 : i = A.length := by omega
        subst hi2
        rw [mergeLoop_stop (by omega)]

/-- C6: on two identical tables the engine emits the header event and
nothing else: no left rows, no right rows, no separators. -/
theorem identical_tables_only_header (header : List String) (pks maxlen : List Nat)
    (A : List (List String)) :
    doEvents header pks maxlen A A = .ok [Ev.mk ' ' header none] := by
  unfold doEvents
  rw [mergeLoop_identical pks maxlen A (A.length + A.length) 0 none (by omega) (by omega)]

/-! ### Matched-but-differing rows (C3) -/

theorem any_ne_empty {l : List Bool} (h : l.any id = true) : l.isEmpty = false := by
  cases l with
  | nil => simp [List.any_nil] at h
  | cons a l => rfl

theorem colorize_left_cell (pks maxlen : List Nat) (row : List String)
    (d : List Bool) (hne : d.isEmpty = false) (k : Nat) :
    colorize pks maxlen '<' row (some d) k =
      (if d.getD k false then RED else "") ++ (if pks.contains k then BOLD else "") ++
      row.getD k "" ++ spaces (maxlen.getD k 0 - (row.getD k "").length) ++
      (if d.getD k false || pks.contains k then RESET else "") := by
  by_cases hb : k ∈ pks <;> cases hdk : d.getD k false <;>
    rw [List.getD_eq_getElem?_getD] at hdk <;>
    simp [colorize, hne, hdk, hb, RED, GREEN, BOLD, RESET]

theorem colorize_right_cell (pks maxlen : List Nat) (row : List String)
    (d : List Bool) (hne : d.isEmpty = false) (k : Nat) :
    colorize pks maxlen '>' row (some d) k =
      (if d.getD k false then GREEN else "") ++ (if pks.contains k then BOLD else "") ++
      row.getD k "" ++ spaces (maxlen.getD k 0 - (row.getD k "").length) ++
      (if d.getD k false || pks.contains k then RESET else "") := by
  by_cases hb : k ∈ pks <;> cases hdk : d.getD k false <;>
    rw [List.getD_eq_getElem?_getD] at hdk <;>
    simp [colorize, hne, hdk, hb, RED, GREEN, BOLD, RESET]

/-- C3, counterexample to "primary-key columns are never given the diff
background highlight": with key column 0, rows ["07"] and ["7"] have equal
parsed keys (both integer 7) but differing texts, so the matched pair is
emitted with the red/green diff background on the key column itself. -/
theorem pk_column_highlighted :
    pcdRun ["k"] ["0"] [["07"]] [["7"]] = .ok
      [(' ', ["\x1b[1mk \x1b[0m"]),
       (' ', ["\x1b[1m--\x1b[0m"]),
       ('<', ["\x1b[41m\x1b[1m07\x1b[0m"]),
       ('>', ["\x1b[42m\x1b[1m7 \x1b[0m"])] ∧
    (List.contains [0] 0 = true) ∧
    "\x1b[41m\x1b[1m07\x1b[0m" = RED ++ "\x1b[1m07\x1b[0m" :=
  ⟨by decide, by decide, by decide⟩

/-- C3, amended: for a matched pair with at least one differing field,
the step emits a separator, then the left-marked row, then the
right-marked row adjacently, advancing both cursors; each rendered cell
carries the background highlight exactly when the field texts at that
column differ — including a primary-key column whose texts differ while
its parsed keys are equal — and carries bold exactly on primary-key
columns. -/
theorem matched_diff_emission (pks maxlen : List Nat) (A B : List (List String))
    (i j k : Nat) (prev : Option (Bool × Bool))
    (hi : i < A.length) (hj : j < B.length)
    (heq : listEq (keyAt pks A i) (keyAt pks B j) = true)
    (hd : (rowDiff (A.getD i []) (B.getD j [])).any id = true) :
    stepOf pks maxlen A B i j prev = .ok
      ⟨[Ev.mk ' ' (sepRow maxlen) none,
        Ev.mk '<' (A.getD i []) (some (rowDiff (A.getD i []) (B.getD j []))),
        Ev.mk '>' (B.getD j []) (some (rowDiff (A.getD i []) (B.getD j [])))],
        i + 1, j + 1, some (false, false)⟩ ∧
    colorize pks maxlen '<' (A.getD i []) (some (rowDiff (A.getD i []) (B.getD j []))) k =
      (if (rowDiff (A.getD i []) (B.getD j [])).getD k false then RED else "") ++
      (if pks.contains k then BOLD else "") ++
      (A.getD i []).getD k "" ++
      spaces (maxlen.getD k 0 - ((A.getD i []).getD k "").length) ++
      (if (rowDiff (A.getD i []) (B.getD j [])).getD k false || pks.contains k
        then RESET else "") ∧
    colorize pks maxlen '>' (B.getD j []) (some (rowDiff (A.getD i []) (B.getD j []))) k =
      (if (rowDiff (A.getD i []) (B.getD j [])).getD k false then GREEN else "") ++
      (if pks.contains k then BOLD else "") ++
      (B.getD j []).getD k "" ++
      spaces (maxlen.getD k 0 - ((B.getD j []).getD k "").length) ++
      (if (rowDiff (A.getD i []) (B.getD j [])).getD k false || pks.contains k
        then RESET else "") := by
  have hkey := listEq_eq heq
  have hrA : keyAt pks A i = realKey pks (A.getD i []) := keyAt_in hi
  have hreal : isRealKey (keyAt pks A i) = true := by
    rw [hrA]; exact realKey_isReal pks (A.getD i [])
  have hc : classify (keyAt pks A i) (keyAt pks B j) = .ok (false, false, true) := by
    have h1 : listLt (keyAt pks A i) (keyAt pks B j) = .ok false := by
      rw [← hkey]; exact listLt_self_real hreal
    have h2 : listGt (keyAt pks A i) (keyAt pks B j) = .ok false := by
      rw [listGt_swap, ← hkey]; exact listLt_self_real hreal
    rw [classify_intro h1 h2, heq]
  have hne := any_ne_empty hd
  refine ⟨?_, colorize_left_cell pks maxlen (A.getD i []) _ hne k,
    colorize_right_cell pks maxlen (B.getD j []) _ hne k⟩
  rw [stepOf_ok hc]
  have hmem : true ∈ rowDiff (A.getD i []) (B.getD j []) := by
    simpa using hd
  simp only [List.getD_eq_getElem?_getD] at hmem
  simp [stepBody, diffAb, hd, hmem]

/-- Closed witness for `matched_diff_emission`: key column 0, rows
["07"] and ["7"]. -/
theorem matched_diff_emission_witness :
    stepOf [0] [2] [["07"]] [["7"]] 0 0 none = .ok
      ⟨[Ev.mk ' ' ["--"] none,
        Ev.mk '<' ["07"] (some [true]),
        Ev.mk '>' ["7"] (some [true])], 1, 1, some (false, false)⟩ ∧
    colorize [0] [2] '<' ["07"] (some [true]) 0 =
      RED ++ BOLD ++ "07" ++ spaces 0 ++ RESET ∧
    colorize [0] [2] '>' ["7"] (some [true]) 0 =
      GREEN ++ BOLD ++ "7" ++ spaces 1 ++ RESET :=
  matched_diff_emission [0] [2] [["07"]] [["7"]] 0 0 0 none
    (by decide) (by decide) (by decide) (by decide)

/-! ### Separator policy (C5) -/

theorem guard_not_both_sentinel {pks : List Nat} {A B : List (List String)} {i j : Nat}
    (hguard : i < A.length ∨ j < B.length) :
    ¬(keyAt pks A i = sentinelKey ∧ keyAt pks B j = sentinelKey) := by
  intro hsent
  rcases hguard with hg | hg
  · rw [keyAt_in hg] at hsent
    exact realKey_ne_sentinel pks (A.getD i []) hsent.1
  · rw [keyAt_in hg] at hsent
    exact realKey_ne_sentinel pks (B.getD j []) hsent.2

/-- C5: a separator is emitted at a merge step iff (a) the step is not a
pure no-difference match and its transition pair (goesA, goesB) differs
from the recorded previous one, or (b) the step is a matched-but-differing
row; and the recorded previous transition becomes the current pair exactly
when a separator is emitted — including the very first differing match,
when previous is still unset. -/
theorem separator_policy (pks maxlen : List Nat) (A B : List (List String))
    (i j : Nat) (prev : Option (Bool × Bool)) (la ga ea : Bool) (s : StepOut)
    (hguard : i < A.length ∨ j < B.length)
    (hc : classify (keyAt pks A i) (keyAt pks B j) = .ok (la, ga, ea))
    (hs : stepOf pks maxlen A B i j prev = .ok s) :
    (s.evs.any (fun e => e.pre == ' ') = true ↔
      ((¬(ea = true ∧
            diffAb (if ea then some (rowDiff (A.getD i []) (B.getD j [])) else none) = false) ∧
          prev ≠ some (la, ga)) ∨
        diffAb (if ea then some (rowDiff (A.getD i []) (B.getD j [])) else none) = true)) ∧
    s.prev = (if s.evs.any (fun e => e.pre == ' ') = true then some (la, ga) else prev) := by
  have hsum := classify_loop_exactly_one _ _ la ga ea
    (keyAt_shape pks A i) (keyAt_shape pks B j) (guard_not_both_sentinel hguard) hc
  rw [stepOf_ok hc] at hs
  have hsv : s = stepBody pks maxlen A B i j prev la ga ea := (Except.ok.inj hs).symm
  subst hsv
  cases la <;> cases ga <;> cases ea
  · exact absurd hsum (by decide)
  · by_cases hdab : true ∈ rowDiff (A.getD i []) (B.getD j [])
    · have hany : (rowDiff (A.getD i []) (B.getD j [])).any id = true := by
        simpa using hdab
      simp only [List.getD_eq_getElem?_getD] at hany
      simp [stepBody, diffAb, hany]
    · have hany : (rowDiff (A.getD i []) (B.getD j [])).any id = false := by
        rw [Bool.eq_false_iff]
        intro hcon
        exact hdab (by simpa using hcon)
      simp only [List.getD_eq_getElem?_getD] at hany
      simp [stepBody, diffAb, hany]
  · by_cases hp : prev = some (false, true) <;> simp [stepBody, diffAb, hp]
  · exact absurd hsum (by decide)
  · by_cases hp : prev = some (true, false) <;> simp [stepBody, diffAb, hp]
  · exact absurd hsum (by decide)
  · exact absurd hsum (by decide)
  · exact absurd hsum (by decide)

/-- Closed witness for `separator_policy`: a goesA step from the initial
state (previous unset) emits a separator and records (true, false). -/
theorem separator_policy_witness :
    ((StepOut.mk [Ev.mk ' ' ["-"] none, Ev.mk '<' ["1"] none] 1 0 (some (true, false))).evs.any
        (fun e => e.pre == ' ') = true ↔
      ((¬((false : Bool) = true ∧
            diffAb (if (false : Bool) then some (rowDiff ["1"] ["2"]) else none) = false) ∧
          (none : Option (Bool × Bool)) ≠ some (true, false)) ∨
        diffAb (if (false : Bool) then some (rowDiff ["1"] ["2"]) else none) = true)) ∧
    (StepOut.mk [Ev.mk ' ' ["-"] none, Ev.mk '<' ["1"] none] 1 0 (some (true, false))).prev =
      (if (StepOut.mk [Ev.mk ' ' ["-"] none, Ev.mk '<' ["1"] none] 1 0
            (some (true, false))).evs.any (fun e => e.pre == ' ') = true
        then some (true, false) else none) :=
  separator_policy [0] [1] [["1"]] [["2"]] 0 0 none true false false
    ⟨[Ev.mk ' ' ["-"] none, Ev.mk '<' ["1"] none], 1, 0, some (true, false)⟩
    (Or.inl (by decide)) (by decide) (by decide)

/-! ### Termination of the merge loop (C4) -/

theorem listEq_sentinel_right : ∀ (k : List KElem), listEq k sentinelKey = false
  | [] => rfl
  | _ :: _ => by simp [sentinelKey, listEq, keq_ag_right]

theorem out_of_bounds_A {pks : List Nat} {A B : List (List String)} {i j : Nat}
    {la ga ea : Bool} (hia : ¬i < A.length)
    (h : classify (keyAt pks A i) (keyAt pks B j) = .ok (la, ga, ea)) :
    la = false ∧ ea = false := by
  obtain ⟨hlt, _, heq⟩ := classify_ok h
  rw [keyAt_out hia, listLt_sentinel_left] at hlt
  rw [keyAt_out hia, listEq_sentinel_left] at heq
  exact ⟨(Except.ok.inj hlt).symm, heq.symm⟩

theorem out_of_bounds_B {pks : List Nat} {A B : List (List String)} {i j : Nat}
    {la ga ea : Bool} (hjb : ¬j < B.length)
    (h : classify (keyAt pks A i) (keyAt pks B j) = .ok (la, ga, ea)) :
    ga = false ∧ ea = false := by
  obtain ⟨_, hgt, heq⟩ := classify_ok h
  rw [keyAt_out hjb, listGt_swap, listLt_sentinel_left] at hgt
  rw [keyAt_out hjb, listEq_sentinel_right] at heq
  exact ⟨(Except.ok.inj hgt).symm, heq.symm⟩

/-- The cursors move by at most one each, never past the table ends, and
never backwards. -/
theorem step_state {pks maxlen : List Nat} {A B : List (List String)} {i j : Nat}
    {prev : Option (Bool × Bool)} {s : StepOut}
    (hs : stepOf pks maxlen A B i j prev = .ok s)
    (hi : i ≤ A.length) (hj : j ≤ B.length) :
    s.i ≤ A.length ∧ s.j ≤ B.length ∧ s.i ≤ i + 1 ∧ s.j ≤ j + 1 ∧ i ≤ s.i ∧ j ≤ s.j := by
  cases hc : classify (keyAt pks A i) (keyAt pks B j) with
  | error e =>
    cases e
    rw [stepOf_error hc] at hs
    exact absurd hs (by simp)
  | ok r =>
    obtain ⟨la, ga, ea⟩ := r
    rw [stepOf_ok hc] at hs
    have hsv : s = stepBody pks maxlen A B i j prev la ga ea := (Except.ok.inj hs).symm
    subst hsv
    refine ⟨?_, ?_, ?_, ?_, ?_, ?_⟩
    · simp only [stepBody]
      split
      · by_cases hia : i < A.length
        · omega
        · obtain ⟨h1, h2⟩ := out_of_bounds_A hia hc
          simp_all
      · exact hi
    · simp only [stepBody]
      split
      · by_cases hjb : j < B.length
        · omega
        · obtain ⟨h1, h2⟩ := out_of_bounds_B hjb hc
          simp_all
      · exact hj
    · simp only [stepBody]
      split <;> omega
    · simp only [stepBody]
      split <;> omega
    · simp only [stepBody]
      split <;> omega
    · simp only [stepBody]
      split <;> omega

/-- Every iteration taken under the loop guard advances at least one
cursor. -/
theorem step_progress {pks maxlen : List Nat} {A B : List (List String)} {i j : Nat}
    {prev : Option (Bool × Bool)} {s : StepOut}
    (hguard : i < A.length ∨ j < B.length)
    (hs : stepOf pks maxlen A B i j prev = .ok s) :
    i + j < s.i + s.j := by
  cases hc : classify (keyAt pks A i) (keyAt pks B j) with
  | error e =>
    cases e
    rw [stepOf_error hc] at hs
    exact absurd hs (by simp)
  | ok r =>
    obtain ⟨la, ga, ea⟩ := r
    have hsum := classify_loop_exactly_one _ _ la ga ea
      (keyAt_shape pks A i) (keyAt_shape pks B j) (guard_not_both_sentinel hguard) hc
    rw [stepOf_ok hc] at hs
    have hsv : s = stepBody pks maxlen A B i j prev la ga ea := (Except.ok.inj hs).symm
    subst hsv
    cases la <;> cases ga <;> cases ea <;> simp [stepBody] <;> first | omega | exact absurd hsum (by decide)

/-- With comparable keys, classification succeeds at every cursor pair. -/
theorem classify_ok_of_comparable {pks : List Nat} {A B : List (List String)}
    (hcomp : keysComparable pks A B) (i j : Nat) :
    ∃ r, classify (keyAt pks A i) (keyAt pks B j) = .ok r := by
  by_cases hia : i < A.length
  · by_cases hjb : j < B.length
    · rw [keyAt_in hia, keyAt_in hjb]
      exact hcomp (A.getD i []) (by rw [List.getD_eq_getElem _ _ hia]; exact List.getElem_mem hia)
        (B.getD j []) (by rw [List.getD_eq_getElem _ _ hjb]; exact List.getElem_mem hjb)
    · rw [keyAt_in hia, keyAt_out hjb]
      have h1 : listLt (realKey pks (A.getD i [])) sentinelKey = .ok true :=
        listLt_real_sentinel (realKey_isReal pks (A.getD i []))
      have h2 : listGt (realKey pks (A.getD i [])) sentinelKey = .ok false := by
        rw [listGt_swap, listLt_sentinel_left]
      exact ⟨_, classify_intro h1 h2⟩
  · rw [keyAt_out hia]
    have h1 : listLt sentinelKey (keyAt pks B j) = .ok false := listLt_sentinel_left _
    by_cases hjb : j < B.length
    · rw [keyAt_in hjb]
      have h2 : listGt sentinelKey (realKey pks (B.getD j [])) = .ok true :=
        listGt_sentinel_left_real (realKey_isReal pks (B.getD j []))
      exact ⟨_, classify_intro (listLt_sentinel_left _) h2⟩
    · rw [keyAt_out hjb]
      have h2 : listGt sentinelKey sentinelKey = .ok false := by decide
      exact ⟨_, classify_intro (listLt_sentinel_left _) h2⟩

/-- With comparable keys and enough fuel, the loop runs to completion and
stops exactly at the table lengths. -/
theorem mergeLoop_total (pks maxlen : List Nat) (A B : List (List String))
    (hcomp : keysComparable pks A B) :
    ∀ (fuel i j : Nat) (prev : Option (Bool × Bool)),
      i ≤ A.length → j ≤ B.length →
      A.length - i + (B.length - j) ≤ fuel →
      ∃ evs, mergeLoop pks maxlen A B fuel i j prev = .ok (evs, A.length, B.length)
  | 0, i, j, prev, hi, hj, hfuel => by
      have hia : i = A.length := by omega
      have hjb : j = B.length := by omega
      subst hia
      subst hjb
      exact ⟨[], mergeLoop_stop (by omega)⟩
  | fuel + 1, i, j, prev, hi, hj, hfuel => by
      by_cases hguard : i < A.length ∨ j < B.length
      · obtain ⟨⟨la, ga, ea⟩, hc⟩ := classify_ok_of_comparable hcomp i j
        have hso := @stepOf_ok pks maxlen A B i j prev la ga ea hc
        have hst := step_state hso hi hj
        have hpr := step_progress hguard hso
        obtain ⟨evs, hrec⟩ := mergeLoop_total pks maxlen A B hcomp fuel
          (stepBody pks maxlen A B i j prev la ga ea).i
          (stepBody pks maxlen A B i j prev la ga ea).j
          (stepBody pks maxlen A B i j prev la ga ea).prev
          hst.1 hst.2.1 (by omega)
        refine ⟨(stepBody pks maxlen A B i j prev la ga ea).evs ++ evs, ?_⟩
        rw [mergeLoop_go hguard, hso]
        simp only [hrec]
      · have hia : i = A.length := by omega
        have hjb : j = B.length := by omega
        subst hia
        subst hjb
        exact ⟨[], mergeLoop_stop (by omega)⟩

/-- C4: under the loop guard every successful iteration advances at least
one cursor, and with pairwise-comparable keys the merge loop terminates,
reaching exactly the state where both cursors equal their table lengths. -/
theorem merge_terminates (pks maxlen : List Nat) (A B : List (List String))
    (i j : Nat) (prev : Option (Bool × Bool)) (s : StepOut)
    (hcomp : keysComparable pks A B)
    (hguard : i < A.length ∨ j < B.length)
    (hs : stepOf pks maxlen A B i j prev = .ok s) :
    i + j < s.i + s.j ∧
    ∃ evs, mergeLoop pks maxlen A B (A.length + B.length) 0 0 none =
      .ok (evs, A.length, B.length) :=
  ⟨step_progress hguard hs,
   mergeLoop_total pks maxlen A B hcomp (A.length + B.length) 0 0 none
     (by omega) (by omega) (by omega)⟩

/-- Closed witness for `merge_terminates` on tables [["1"]] and [["2"]]. -/
theorem merge_terminates_witness :
    0 + 0 <
      (StepOut.mk [Ev.mk ' ' ["-"] none, Ev.mk '<' ["1"] none] 1 0 (some (true, false))).i +
      (StepOut.mk [Ev.mk ' ' ["-"] none, Ev.mk '<' ["1"] none] 1 0 (some (true, false))).j ∧
    ∃ evs, mergeLoop [0] [1] [["1"]] [["2"]] ((1 : Nat) + 1) 0 0 none = .ok (evs, 1, 1) :=
  merge_terminates [0] [1] [["1"]] [["2"]] 0 0 none
    ⟨[Ev.mk ' ' ["-"] none, Ev.mk '<' ["1"] none], 1, 0, some (true, false)⟩
    (by decide) (Or.inl (by decide)) (by decide)

/-! ### Column widths and cell rendering (C8) -/

theorem spaces_length (n : Nat) : (spaces n).length = n := by
  rw [spaces, String.length_mk, List.length_replicate]

theorem getD_map_length : ∀ (r : List String) (k : Nat), k < r.length →
    (r.map String.length).getD k 0 = (r.getD k "").length
  | [], k, h => absurd h (by simp)
  | a :: r, 0, _ => rfl
  | a :: r, k + 1, h => by
      simp only [List.map_cons, List.getD_cons_succ]
      exact getD_map_length r k (by simpa using h)

theorem zipWith_max_getD_right : ∀ (xs ys : List Nat), xs.length = ys.length →
    ∀ k, ys.getD k 0 ≤ (List.zipWith max xs ys).getD k 0
  | [], [], _, k => le_refl _
  | [], _ :: _, h, _ => by simp at h
  | _ :: _, [], h, _ => by simp at h
  | x :: xs, y :: ys, h, 0 => by
      simp only [List.zipWith_cons_cons, List.getD_cons_zero]
      exact le_max_right x y
  | x :: xs, y :: ys, h, k + 1 => by
      simp only [List.zipWith_cons_cons, List.getD_cons_succ]
      exact zipWith_max_getD_right xs ys (by simpa using h) k

theorem zipWith_max_getD_left : ∀ (xs ys : List Nat), xs.length = ys.length →
    ∀ k, xs.getD k 0 ≤ (List.zipWith max xs ys).getD k 0
  | [], [], _, k => le_refl _
  | [], _ :: _, h, _ => by simp at h
  | _ :: _, [], h, _ => by simp at h
  | x :: xs, y :: ys, h, 0 => by
      simp only [List.zipWith_cons_cons, List.getD_cons_zero]
      exact le_max_left x y
  | x :: xs, y :: ys, h, k + 1 => by
      simp only [List.zipWith_cons_cons, List.getD_cons_succ]
      exact zipWith_max_getD_left xs ys (by simpa using h) k

theorem foldMax_length : ∀ (rows : List (List String)) (acc : List Nat),
    (∀ r ∈ rows, r.length = acc.length) →
    (rows.foldl (fun acc row => List.zipWith max (row.map String.length) acc) acc).length
      = acc.length
  | [], _, _ => rfl
  | r :: rows, acc, h => by
      rw [List.foldl_cons]
      have hlen : (List.zipWith max (r.map String.length) acc).length = acc.length := by
        rw [List.length_zipWith, List.length_map, h r (List.mem_cons_self r rows)]
        omega
      rw [foldMax_length rows _ (fun r2 hr2 => by
        rw [hlen]; exact h r2 (List.mem_cons_of_mem r hr2)), hlen]

theorem foldMax_mono : ∀ (rows : List (List String)) (acc : List Nat),
    (∀ r ∈ rows, r.length = acc.length) → ∀ k,
    acc.getD k 0 ≤
      (rows.foldl (fun acc row => List.zipWith max (row.map String.length) acc) acc).getD k 0
  | [], _, _, _ => le_refl _
  | r :: rows, acc, h, k => by
      rw [List.foldl_cons]
      have hlen : (List.zipWith max (r.map String.length) acc).length = acc.length := by
        rw [List.length_zipWith, List.length_map, h r (List.mem_cons_self r rows)]
        omega
      calc acc.getD k 0
          ≤ (List.zipWith max (r.map String.length) acc).getD k 0 :=
            zipWith_max_getD_right _ _ (by rw [List.length_map]; exact h r (List.mem_cons_self r rows)) k
        _ ≤ _ := foldMax_mono rows _ (fun r2 hr2 => by
            rw [hlen]; exact h r2 (List.mem_cons_of_mem r hr2)) k

theorem foldMax_row_le : ∀ (rows : List (List String)) (acc : List Nat),
    (∀ r ∈ rows, r.length = acc.length) → ∀ r ∈ rows, ∀ k,
    (r.map String.length).getD k 0 ≤
      (rows.foldl (fun acc row => List.zipWith max (row.map String.length) acc) acc).getD k 0
  | [], _, _, r, hr, _ => absurd hr (List.not_mem_nil r)
  | r0 :: rows, acc, h, r, hr, k => by
      rw [List.foldl_cons]
      have hlen : (List.zipWith max (r0.map String.length) acc).length = acc.length := by
        rw [List.length_zipWith, List.length_map, h r0 (List.mem_cons_self r0 rows)]
        omega
      have htail : ∀ r2 ∈ rows, r2.length =
          (List.zipWith max (r0.map String.length) acc).length := fun r2 hr2 => by
        rw [hlen]; exact h r2 (List.mem_cons_of_mem r0 hr2)
      rcases List.mem_cons.mp hr with rfl | hr2
      · calc (r.map String.length).getD k 0
            ≤ (List.zipWith max (r.map String.length) acc).getD k 0 :=
              zipWith_max_getD_left _ _ (by rw [List.length_map]; exact h r (List.mem_cons_self r rows)) k
          _ ≤ _ := foldMax_mono rows _ htail k
      · exact foldMax_row_le rows _ htail r hr2 k

theorem computeMaxlen_header_le (header : List String) (A B : List (List String))
    (har : ∀ r ∈ A ++ B, r.length = header.length) (k : Nat) (hk : k < header.length) :
    (header.getD k "").length ≤ (computeMaxlen header A B).getD k 0 := by
  unfold computeMaxlen
  rw [← getD_map_length header k hk]
  exact foldMax_mono (A ++ B) (header.map String.length)
    (fun r hr => by rw [List.length_map]; exact har r hr) k

theorem computeMaxlen_row_le (header : List String) (A B : List (List String))
    (har : ∀ r ∈ A ++ B, r.length = header.length) (r : List String) (hr : r ∈ A ++ B)
    (k : Nat) (hk : k < r.length) :
    (r.getD k "").length ≤ (computeMaxlen header A B).getD k 0 := by
  unfold computeMaxlen
  rw [← getD_map_length r k hk]
  exact foldMax_row_le (A ++ B) (header.map String.length)
    (fun r2 hr2 => by rw [List.length_map]; exact har r2 hr2) r hr k

theorem computeMaxlen_length (header : List String) (A B : List (List String))
    (har : ∀ r ∈ A ++ B, r.length = header.length) :
    (computeMaxlen header A B).length = header.length := by
  unfold computeMaxlen
  rw [foldMax_length (A ++ B) (header.map String.length)
    (fun r hr => by rw [List.length_map]; exact har r hr), List.length_map]

theorem mem_ite_list {α : Type} {x : α} {c : Prop} [Decidable c] {l : List α}
    (h : x ∈ if c then l else []) : x ∈ l := by
  by_cases hc : c
  · rw [if_pos hc] at h
    exact h
  · rw [if_neg hc] at h
    exact absurd h (List.not_mem_nil x)

/-- Rows of the loop events: every yielded row is the dashed separator
row or a row of one of the two tables. -/
theorem stepOf_rows {pks maxlen : List Nat} {A B : List (List String)} {i j : Nat}
    {prev : Option (Bool × Bool)} {s : StepOut}
    (hs : stepOf pks maxlen A B i j prev = .ok s) :
    ∀ ev ∈ s.evs, ev.row = sepRow maxlen ∨ ev.row ∈ A ∨ ev.row ∈ B := by
  cases hc : classify (keyAt pks A i) (keyAt pks B j) with
  | error e =>
    cases e
    rw [stepOf_error hc] at hs
    exact absurd hs (by simp)
  | ok r =>
    obtain ⟨la, ga, ea⟩ := r
    rw [stepOf_ok hc] at hs
    have hsv : s = stepBody pks maxlen A B i j prev la ga ea := (Except.ok.inj hs).symm
    subst hsv
    intro ev hev
    simp only [stepBody] at hev
    rcases List.mem_append.mp hev with h12 | h3
    · rcases List.mem_append.mp h12 with h1 | h2
      · rw [List.mem_singleton.mp (mem_ite_list h1)]
        exact Or.inl rfl
      · by_cases hia : i < A.length
        · rw [List.mem_singleton.mp (mem_ite_list (mem_ite_list h2))]
          refine Or.inr (Or.inl ?_)
          show A.getD i [] ∈ A
          rw [List.getD_eq_getElem _ _ hia]
          exact List.getElem_mem hia
        · obtain ⟨hla, hea⟩ := out_of_bounds_A hia hc
          subst hla
          subst hea
          simp at h2
    · by_cases hjb : j < B.length
      · rw [List.mem_singleton.mp (mem_ite_list (mem_ite_list h3))]
        refine Or.inr (Or.inr ?_)
        show B.getD j [] ∈ B
        rw [List.getD_eq_getElem _ _ hjb]
        exact List.getElem_mem hjb
      · obtain ⟨hga, hea⟩ := out_of_bounds_B hjb hc
        subst hga
        subst hea
        simp at h3

theorem mergeLoop_rows {pks maxlen : List Nat} {A B : List (List String)} :
    ∀ {fuel i j : Nat} {prev : Option (Bool × Bool)} {evs : List Ev} {fi fj : Nat},
      mergeLoop pks maxlen A B fuel i j prev = .ok (evs, fi, fj) →
      ∀ ev ∈ evs, ev.row = sepRow maxlen ∨ ev.row ∈ A ∨ ev.row ∈ B := by
  intro fuel
  induction fuel with
  | zero =>
    intro i j prev evs fi fj h ev hev
    by_cases hguard : i < A.length ∨ j < B.length
    · rw [mergeLoop] at h
      rw [if_pos hguard] at h
      exact absurd h (by simp)
    · rw [mergeLoop_stop hguard] at h
      obtain ⟨h1, _⟩ := Prod.mk.injEq .. ▸ (Except.ok.inj h)
      rw [← h1] at hev
      exact absurd hev (List.not_mem_nil ev)
  | succ fuel ih =>
    intro i j prev evs fi fj h ev hev
    by_cases hguard : i < A.length ∨ j < B.length
    · rw [mergeLoop_go hguard] at h
      cases hst : stepOf pks maxlen A B i j prev with
      | error e => rw [hst] at h; exact absurd h (by simp)
      | ok s =>
        rw [hst] at h
        simp only [] at h
        cases hrec : mergeLoop pks maxlen A B fuel s.i s.j s.prev with
        | error e => rw [hrec] at h; exact absurd h (by simp)
        | ok r =>
          obtain ⟨rest, fi2, fj2⟩ := r
          rw [hrec] at h
          simp only [Except.ok.injEq, Prod.mk.injEq] at h
          rw [← h.1] at hev
          rcases List.mem_append.mp hev with hm | hm
          · exact stepOf_rows hst ev hm
          · exact ih hrec ev hm
    · rw [mergeLoop_stop hguard] at h
      obtain ⟨h1, _⟩ := Prod.mk.injEq .. ▸ (Except.ok.inj h)
      rw [← h1] at hev
      exact absurd hev (List.not_mem_nil ev)

theorem doEvents_rows {header : List String} {pks maxlen : List Nat}
    {A B : List (List String)} {evs : List Ev}
    (h : doEvents header pks maxlen A B = .ok evs) :
    ∀ ev ∈ evs, ev.row = header ∨ ev.row = sepRow maxlen ∨ ev.row ∈ A ∨ ev.row ∈ B := by
  unfold doEvents at h
  cases hml : mergeLoop pks maxlen A B (A.length + B.length) 0 0 none with
  | error e => rw [hml] at h; exact absurd h (by simp)
  | ok r =>
    obtain ⟨evs0, fi, fj⟩ := r
    rw [hml] at h
    simp only [Except.ok.injEq] at h
    intro ev hev
    rw [← h] at hev
    rcases List.mem_cons.mp hev with rfl | hm
    · exact Or.inl rfl
    · exact Or.inr (mergeLoop_rows hml ev hm)

/-- Structural decomposition of a rendered cell: a styling prefix, the
field text, the space padding to the column width, and an optional
trailing reset. -/
theorem colorize_decomp (pks maxlen : List Nat) (pre : Char) (row : List String)
    (diff : Option (List Bool)) (k : Nat) :
    ∃ sgr rst,
      colorize pks maxlen pre row diff k =
        sgr ++ (row.getD k "" ++ spaces (maxlen.getD k 0 - (row.getD k "").length)) ++ rst ∧
      sgr ∈ ["", BOLD, RED, GREEN, RED ++ BOLD, GREEN ++ BOLD] ∧
      (rst = "" ∨ rst = RESET) := by
  simp only [colorize]
  split
  · split
    · split
      · refine ⟨RED ++ BOLD, RESET, ?_, by decide, Or.inr rfl⟩
        rw [if_neg (show ¬((RED ++ BOLD : String) = "") by decide)]
        simp [String.append_assoc]
      · refine ⟨RED ++ "", RESET, ?_, by decide, Or.inr rfl⟩
        rw [if_neg (show ¬((RED ++ "" : String) = "") by decide)]
        simp [String.append_assoc]
    · split
      · refine ⟨GREEN ++ BOLD, RESET, ?_, by decide, Or.inr rfl⟩
        rw [if_neg (show ¬((GREEN ++ BOLD : String) = "") by decide)]
        simp [String.append_assoc]
      · refine ⟨GREEN ++ "", RESET, ?_, by decide, Or.inr rfl⟩
        rw [if_neg (show ¬((GREEN ++ "" : String) = "") by decide)]
        simp [String.append_assoc]
  · split
    · refine ⟨"" ++ BOLD, RESET, ?_, by decide, Or.inr rfl⟩
      rw [if_neg (show ¬(("" ++ BOLD : String) = "") by decide)]
      simp [String.append_assoc]
    · refine ⟨"" ++ "", "", ?_, by decide, Or.inl rfl⟩
      rw [if_pos (show (("" ++ "" : String) = "") by decide)]
      simp [String.append_assoc]

theorem sepRow_getD_length (maxlen : List Nat) (k : Nat) (hk : k < (sepRow maxlen).length) :
    ((sepRow maxlen).getD k "").length = maxlen.getD k 0 := by
  unfold sepRow at hk ⊢
  rw [List.length_map] at hk
  rw [List.getD_eq_getElem _ _ (by rw [List.length_map]; exact hk)]
  simp only [List.getElem_map]
  rw [String.length_mk, List.length_replicate, List.getD_eq_getElem _ _ hk]

/-- C8: every rendered cell of every emitted row (header, separator or
data) is a styling prefix, then the field text left-aligned with space
padding appended to the shared per-column maximum width — the maximum
field length over the header and all rows of both tables — then an
optional trailing reset; the cell's unstyled length (text plus padding)
equals exactly that width. -/
theorem cell_width_invariant (header : List String) (pks : List Nat)
    (A B : List (List String)) (evs : List Ev) (ev : Ev) (k : Nat)
    (har : ∀ r ∈ A ++ B, r.length = header.length)
    (h : doEvents header pks (computeMaxlen header A B) A B = .ok evs)
    (hev : ev ∈ evs) (hk : k < ev.row.length) :
    ∃ sgr rst,
      (formatted pks (computeMaxlen header A B) ev.pre ev.row ev.diff).2.getD k "" =
        sgr ++ (ev.row.getD k "" ++
          spaces ((computeMaxlen header A B).getD k 0 - (ev.row.getD k "").length)) ++ rst ∧
      (ev.row.getD k "" ++
        spaces ((computeMaxlen header A B).getD k 0 - (ev.row.getD k "").length)).length =
        (computeMaxlen header A B).getD k 0 ∧
      sgr ∈ ["", BOLD, RED, GREEN, RED ++ BOLD, GREEN ++ BOLD] ∧
      (rst = "" ∨ rst = RESET) := by
  have hcell : (formatted pks (computeMaxlen header A B) ev.pre ev.row ev.diff).2.getD k "" =
      colorize pks (computeMaxlen header A B) ev.pre ev.row ev.diff k := by
    unfold formatted
    rw [List.getD_eq_getElem _ _ (by simpa using hk)]
    simp
  obtain ⟨sgr, rst, hdec, hmem, hrst⟩ :=
    colorize_decomp pks (computeMaxlen header A B) ev.pre ev.row ev.diff k
  refine ⟨sgr, rst, by rw [hcell, hdec], ?_, hmem, hrst⟩
  have hle : (ev.row.getD k "").length ≤ (computeMaxlen header A B).getD k 0 := by
    rcases doEvents_rows h ev hev with hrow | hrow | hrow | hrow
    · rw [hrow] at hk ⊢
      exact computeMaxlen_header_le header A B har k hk
    · rw [hrow] at hk ⊢
      exact le_of_eq (sepRow_getD_length _ k hk)
    · exact computeMaxlen_row_le header A B har ev.row (List.mem_append_left B hrow) k hk
    · exact computeMaxlen_row_le header A B har ev.row (List.mem_append_right A hrow) k hk
  rw [String.length_append, spaces_length]
  omega

/-- Closed witness for `cell_width_invariant`: header cell of header
["k"] over tables [["ab"]] and [["ab"]] (shared width 2). -/
theorem cell_width_invariant_witness :
    ∃ sgr rst,
      (formatted [0] [2] ' ' ["k"] none).2.getD 0 "" =
        sgr ++ ("k" ++ spaces 1) ++ rst ∧
      ("k" ++ spaces 1).length = 2 ∧
      sgr ∈ ["", BOLD, RED, GREEN, RED ++ BOLD, GREEN ++ BOLD] ∧
      (rst = "" ∨ rst = RESET) :=
  cell_width_invariant ["k"] [0] [["ab"]] [["ab"]]
    [Ev.mk ' ' ["k"] none] (Ev.mk ' ' ["k"] none) 0
    (by decide) (by decide) (by decide) (by decide)

/-! ### Transitivity of the key order (towards C7) -/

theorem kLt_trans_elem : ∀ {x y z : KElem}, kLt x y = .ok true → kLt y z = .ok true →
    keq x z = false ∧ kLt x z = .ok true
  | .ag, _, _, hxy, _ => by simp [kLt] at hxy
  | .scalar (.pint _), .scalar (.pint _), .scalar (.pint _), hxy, hyz => by
      simp only [kLt, Except.ok.injEq, decide_eq_true_eq] at hxy hyz
      refine ⟨?_, ?_⟩
      · simp only [keq, beq_eq_false_iff_ne]
        exact Nat.ne_of_lt (Nat.lt_trans hxy hyz)
      · simp only [kLt, Except.ok.injEq, decide_eq_true_eq]
        exact Nat.lt_trans hxy hyz
  | .scalar (.pint _), .scalar (.pint _), .scalar (.pstr _), _, hyz => by simp [kLt] at hyz
  | .scalar (.pint _), .scalar (.pint _), .ag, _, _ => ⟨rfl, rfl⟩
  | .scalar (.pint _), .scalar (.pstr _), _, hxy, _ => by simp [kLt] at hxy
  | .scalar (.pint _), .ag, _, _, hyz => by simp [kLt] at hyz
  | .scalar (.pstr _), .scalar (.pstr _), .scalar (.pstr _), hxy, hyz => by
      simp only [kLt, Except.ok.injEq, decide_eq_true_eq] at hxy hyz
      refine ⟨?_, ?_⟩
      · simp only [keq, beq_eq_false_iff_ne]
        exact ne_of_lt (lt_trans hxy hyz)
      · simp only [kLt, Except.ok.injEq, decide_eq_true_eq]
        exact lt_trans hxy hyz
  | .scalar (.pstr _), .scalar (.pstr _), .scalar (.pint _), _, hyz => by simp [kLt] at hyz
  | .scalar (.pstr _), .scalar (.pstr _), .ag, _, _ => ⟨rfl, rfl⟩
  | .scalar (.pstr _), .scalar (.pint _), _, hxy, _ => by simp [kLt] at hxy
  | .scalar (.pstr _), .ag, _, _, hyz => by simp [kLt] at hyz

theorem not_keq_of_eq_false {x y : KElem} (h : keq x y = false) : ¬(keq x y = true) := by
  rw [h]
  exact Bool.false_ne_true

theorem listLt_trans : ∀ {a b c : List KElem},
    listLt a b = .ok true → listLt b c = .ok true → listLt a c = .ok true
  | [], [], _, hab, _ => by simp [listLt] at hab
  | [], _ :: _, [], _, hbc => by simp [listLt] at hbc
  | [], _ :: _, _ :: _, _, _ => rfl
  | _ :: _, [], _, hab, _ => by simp [listLt] at hab
  | _ :: _, _ :: _, [], _, hbc => by simp [listLt] at hbc
  | a0 :: as, b0 :: bs, c0 :: cs, hab, hbc => by
      by_cases p : keq a0 b0 = true
      · have e1 := keq_eq p
        subst e1
        simp only [listLt, if_pos p] at hab
        by_cases q : keq a0 c0 = true
        · have e2 := keq_eq q
          subst e2
          simp only [listLt, if_pos q] at hbc ⊢
          exact listLt_trans hab hbc
        · simp only [listLt, if_neg q] at hbc ⊢
          exact hbc
      · simp only [listLt, if_neg p] at hab
        by_cases q : keq b0 c0 = true
        · have e2 := keq_eq q
          subst e2
          simp only [listLt, if_neg p]
          exact hab
        · simp only [listLt, if_neg q] at hbc
          obtain ⟨hne, hlt⟩ := kLt_trans_elem hab hbc
          simp only [listLt, if_neg (not_keq_of_eq_false hne)]
          exact hlt

theorem pkLe_trans {a b c : List KElem} (hab : pkLe a b) (hbc : pkLe b c) : pkLe a c := by
  rcases hab with hab | hab
  · rcases hbc with hbc | hbc
    · exact Or.inl (listLt_trans hab hbc)
    · have := listEq_eq hbc
      subst this
      exact Or.inl hab
  · have := listEq_eq hab
    subst this
    exact hbc

theorem pkLe_refl_real {k : List KElem} (h : isRealKey k = true) : pkLe k k :=
  Or.inr (listEq_refl_real h)

theorem pkLe_real_sentinel {k : List KElem} (h : isRealKey k = true) :
    pkLe k sentinelKey :=
  Or.inl (listLt_real_sentinel h)

theorem pkLe_sentinel_false {k : List KElem} (h : isRealKey k = true) :
    ¬pkLe sentinelKey k := by
  intro hle
  rcases hle with hlt | heq
  · rw [listLt_sentinel_left] at hlt
    exact Except.noConfusion hlt (fun hh => Bool.false_ne_true hh)
  · rw [listEq_sentinel_left] at heq
    exact Bool.false_ne_true heq

theorem sorted_adjacent {pks : List Nat} {data : List (List String)}
    (h : sortedByPk pks data) {i : Nat} (hi : i + 1 < data.length) :
    pkLe (realKey pks (data.getD i [])) (realKey pks (data.getD (i + 1) [])) := by
  unfold sortedByPk at h
  rw [List.chain'_iff_get] at h
  have h2 := h i (by simp only [List.length_map]; omega)
  simp only [List.get_eq_getElem, List.getElem_map] at h2
  rw [List.getD_eq_getElem _ _ (by omega), List.getD_eq_getElem _ _ hi]
  exact h2

theorem keyAt_step_le {pks : List Nat} {data : List (List String)}
    (h : sortedByPk pks data) {i : Nat} (hi : i < data.length) :
    pkLe (keyAt pks data i) (keyAt pks data (i + 1)) := by
  by_cases h2 : i + 1 < data.length
  · rw [keyAt_in hi, keyAt_in h2]
    exact sorted_adjacent h h2
  · rw [keyAt_in hi, keyAt_out h2]
    exact pkLe_real_sentinel (realKey_isReal pks (data.getD i []))

/-! ### Ordering invariant of the emitted rows (C7) -/

theorem emittedKeys_append (pks : List Nat) (l1 l2 : List Ev) :
    emittedKeys pks (l1 ++ l2) = emittedKeys pks l1 ++ emittedKeys pks l2 := by
  simp [emittedKeys, List.filter_append]

theorem emittedKeys_sep (pks maxlen : List Nat) (c : Prop) [Decidable c] :
    emittedKeys pks (if c then [Ev.mk ' ' (sepRow maxlen) none] else []) = [] := by
  by_cases hc : c
  · rw [if_pos hc]
    simp [emittedKeys, isDataEv]
  · rw [if_neg hc]
    rfl

/-- Invariant of the merge loop: the emitted keys form a `pkLe`-chain,
and the first emitted key is above one of the keys at the entry cursors. -/
theorem mergeLoop_chain {pks maxlen : List Nat} {A B : List (List String)}
    (hA : sortedByPk pks A) (hB : sortedByPk pks B) :
    ∀ (fuel : Nat) {i j : Nat} {prev : Option (Bool × Bool)} {evs : List Ev} {fi fj : Nat},
      mergeLoop pks maxlen A B fuel i j prev = .ok (evs, fi, fj) →
      List.Chain' pkLe (emittedKeys pks evs) ∧
      ∀ k0 ∈ (emittedKeys pks evs).head?,
        (pkLe (keyAt pks A i) k0 ∨ pkLe (keyAt pks B j) k0)
  | 0, i, j, prev, evs, fi, fj, h => by
      by_cases hguard : i < A.length ∨ j < B.length
      · rw [mergeLoop, if_pos hguard] at h
        exact absurd h (by simp)
      · rw [mergeLoop_stop hguard] at h
        obtain ⟨h1, _⟩ := Prod.mk.injEq .. ▸ (Except.ok.inj h)
        rw [← h1]
        exact ⟨List.chain'_nil, by simp [emittedKeys]⟩
  | fuel + 1, i, j, prev, evs, fi, fj, h => by
      by_cases hguard : i < A.length ∨ j < B.length
      · rw [mergeLoop_go hguard] at h
        cases hst : stepOf pks maxlen A B i j prev with
        | error e => rw [hst] at h; exact absurd h (by simp)
        | ok s =>
          rw [hst] at h
          simp only [] at h
          cases hrec : mergeLoop pks maxlen A B fuel s.i s.j s.prev with
          | error e => rw [hrec] at h; exact absurd h (by simp)
          | ok r =>
            obtain ⟨rest, fi2, fj2⟩ := r
            rw [hrec] at h
            simp only [Except.ok.injEq, Prod.mk.injEq] at h
            obtain ⟨hevs, _, _⟩ := h
            rw [← hevs]
            obtain ⟨chainR, boundR⟩ := mergeLoop_chain hA hB fuel hrec
            cases hc : classify (keyAt pks A i) (keyAt pks B j) with
            | error e =>
              cases e
              exact Except.noConfusion ((stepOf_error hc).symm.trans hst)
            | ok rr =>
              obtain ⟨la, ga, ea⟩ := rr
              have hsum := classify_loop_exactly_one _ _ la ga ea
                (keyAt_shape pks A i) (keyAt_shape pks B j)
                (guard_not_both_sentinel hguard) hc
              have hsv : s = stepBody pks maxlen A B i j prev la ga ea :=
                (Except.ok.inj ((@stepOf_ok pks maxlen A B i j prev la ga ea hc).symm.trans hst)).symm
              subst hsv
              obtain ⟨hlt, hgt, heq⟩ := classify_ok hc
              cases la <;> cases ga <;> cases ea
              · exact absurd hsum (by decide)
              · -- matched
                have hia : i < A.length := by
                  by_contra hno
                  exact absurd (out_of_bounds_A hno hc).2 (by decide)
                have hjb : j < B.length := by
                  by_contra hno
                  exact absurd (out_of_bounds_B hno hc).2 (by decide)
                have hkeyA := @keyAt_in pks A i hia
                have hkeyB := @keyAt_in pks B j hjb
                have hkeq : realKey pks (A.getD i []) = realKey pks (B.getD j []) := by
                  rw [← hkeyA, ← hkeyB]
                  exact listEq_eq heq
                have hsi : (stepBody pks maxlen A B i j prev false false true).i = i + 1 := by
                  simp [stepBody]
                have hsj : (stepBody pks maxlen A B i j prev false false true).j = j + 1 := by
                  simp [stepBody]
                rw [hsi, hsj] at boundR
                cases hany : (rowDiff (A.getD i []) (B.getD j [])).any id with
                | false =>
                  have hany2 := hany
                  simp only [List.getD_eq_getElem?_getD] at hany2
                  have hevs2 : (stepBody pks maxlen A B i j prev false false true).evs = [] := by
                    simp [stepBody, diffAb, hany, hany2]
                  rw [hevs2, List.nil_append]
                  refine ⟨chainR, ?_⟩
                  intro k0 hk0
                  rcases boundR k0 hk0 with hb | hb
                  · exact Or.inl (pkLe_trans (keyAt_step_le hA hia) hb)
                  · exact Or.inr (pkLe_trans (keyAt_step_le hB hjb) hb)
                | true =>
                  have hany2 := hany
                  simp only [List.getD_eq_getElem?_getD] at hany2
                  have hevs2 : (stepBody pks maxlen A B i j prev false false true).evs =
                      [Ev.mk ' ' (sepRow maxlen) none,
                       Ev.mk '<' (A.getD i [])
                         (some (rowDiff (A.getD i []) (B.getD j []))),
                       Ev.mk '>' (B.getD j [])
                         (some (rowDiff (A.getD i []) (B.getD j [])))] := by
                    simp [stepBody, diffAb, hany, hany2]
                  rw [hevs2]
                  have hek : emittedKeys pks
                      ([Ev.mk ' ' (sepRow maxlen) none,
                        Ev.mk '<' (A.getD i [])
                          (some (rowDiff (A.getD i []) (B.getD j []))),
                        Ev.mk '>' (B.getD j [])
                          (some (rowDiff (A.getD i []) (B.getD j [])))] ++ rest) =
                      realKey pks (A.getD i []) :: realKey pks (B.getD j []) ::
                        emittedKeys pks rest := by
                    rw [emittedKeys_append]
                    simp [emittedKeys, isDataEv]
                  rw [hek]
                  have hlink : pkLe (realKey pks (A.getD i [])) (realKey pks (B.getD j [])) := by
                    rw [hkeq]
                    exact pkLe_refl_real (realKey_isReal pks (B.getD j []))
                  have hbound2 : ∀ k0 ∈ (emittedKeys pks rest).head?,
                      pkLe (realKey pks (B.getD j [])) k0 := by
                    intro k0 hk0
                    rcases boundR k0 hk0 with hb | hb
                    · refine pkLe_trans ?_ hb
                      rw [← hkeq, ← hkeyA]
                      exact keyAt_step_le hA hia
                    · refine pkLe_trans ?_ hb
                      rw [← hkeyB]
                      exact keyAt_step_le hB hjb
                  refine ⟨List.Chain'.cons' (List.Chain'.cons' chainR hbound2) ?_, ?_⟩
                  · intro k0 hk0
                    simp only [List.head?_cons, Option.mem_def, Option.some.injEq] at hk0
                    rw [← hk0]
                    exact hlink
                  · intro k0 hk0
                    simp only [List.head?_cons, Option.mem_def, Option.some.injEq] at hk0
                    rw [← hk0]
                    refine Or.inl ?_
                    rw [hkeyA]
                    exact pkLe_refl_real (realKey_isReal pks (A.getD i []))
              · -- goesB
                have hjb : j < B.length := by
                  by_contra hno
                  exact absurd (out_of_bounds_B hno hc).1 (by decide)
                have hkeyB := @keyAt_in pks B j hjb
                have hsi : (stepBody pks maxlen A B i j prev false true false).i = i := by
                  simp [stepBody]
                have hsj : (stepBody pks maxlen A B i j prev false true false).j = j + 1 := by
                  simp [stepBody]
                rw [hsi, hsj] at boundR
                have hevs2 : (stepBody pks maxlen A B i j prev false true false).evs =
                    (if (((false || true) &&
                        !(decide (prev = some (false, true)))) || diffAb none) = true
                      then [Ev.mk ' ' (sepRow maxlen) none] else []) ++
                    [Ev.mk '>' (B.getD j []) none] := by
                  simp [stepBody, diffAb]
                rw [hevs2]
                have hek : emittedKeys pks
                    (((if (((false || true) &&
                        !(decide (prev = some (false, true)))) || diffAb none) = true
                      then [Ev.mk ' ' (sepRow maxlen) none] else []) ++
                      [Ev.mk '>' (B.getD j []) none]) ++ rest) =
                    realKey pks (B.getD j []) :: emittedKeys pks rest := by
                  rw [emittedKeys_append, emittedKeys_append, emittedKeys_sep]
                  simp [emittedKeys, isDataEv]
                rw [hek]
                have hgtswap : pkLe (realKey pks (B.getD j [])) (keyAt pks A i) := by
                  rw [listGt_swap] at hgt
                  rw [← hkeyB]
                  exact Or.inl hgt
                have hbound2 : ∀ k0 ∈ (emittedKeys pks rest).head?,
                    pkLe (realKey pks (B.getD j [])) k0 := by
                  intro k0 hk0
                  rcases boundR k0 hk0 with hb | hb
                  · exact pkLe_trans hgtswap hb
                  · refine pkLe_trans ?_ hb
                    rw [← hkeyB]
                    exact keyAt_step_le hB hjb
                refine ⟨List.Chain'.cons' chainR hbound2, ?_⟩
                intro k0 hk0
                simp only [List.head?_cons, Option.mem_def, Option.some.injEq] at hk0
                rw [← hk0]
                refine Or.inr ?_
                rw [hkeyB]
                exact pkLe_refl_real (realKey_isReal pks (B.getD j []))
              · exact absurd hsum (by decide)
              · -- goesA
                have hia : i < A.length := by
                  by_contra hno
                  exact absurd (out_of_bounds_A hno hc).1 (by decide)
                have hkeyA := @keyAt_in pks A i hia
                have hsi : (stepBody pks maxlen A B i j prev true false false).i = i + 1 := by
                  simp [stepBody]
                have hsj : (stepBody pks maxlen A B i j prev true false false).j = j := by
                  simp [stepBody]
                rw [hsi, hsj] at boundR
                have hevs2 : (stepBody pks maxlen A B i j prev true false false).evs =
                    (if (((true || false) &&
                        !(decide (prev = some (true, false)))) || diffAb none) = true
                      then [Ev.mk ' ' (sepRow maxlen) none] else []) ++
                    [Ev.mk '<' (A.getD i []) none] := by
                  simp [stepBody, diffAb]
                rw [hevs2]
                have hek : emittedKeys pks
                    (((if (((true || false) &&
                        !(decide (prev = some (true, false)))) || diffAb none) = true
                      then [Ev.mk ' ' (sepRow maxlen) none] else []) ++
                      [Ev.mk '<' (A.getD i []) none]) ++ rest) =
                    realKey pks (A.getD i []) :: emittedKeys pks rest := by
                  rw [emittedKeys_append, emittedKeys_append, emittedKeys_sep]
                  simp [emittedKeys, isDataEv]
                rw [hek]
                have hltle : pkLe (realKey pks (A.getD i [])) (keyAt pks B j) := by
                  rw [← hkeyA]
                  exact Or.inl hlt
                have hbound2 : ∀ k0 ∈ (emittedKeys pks rest).head?,
                    pkLe (realKey pks (A.getD i [])) k0 := by
                  intro k0 hk0
                  rcases boundR k0 hk0 with hb | hb
                  · refine pkLe_trans ?_ hb
                    rw [← hkeyA]
                    exact keyAt_step_le hA hia
                  · exact pkLe_trans hltle hb
                refine ⟨List.Chain'.cons' chainR hbound2, ?_⟩
                intro k0 hk0
                simp only [List.head?_cons, Option.mem_def, Option.some.injEq] at hk0
                rw [← hk0]
                refine Or.inl ?_
                rw [hkeyA]
                exact pkLe_refl_real (realKey_isReal pks (A.getD i []))
              · exact absurd hsum (by decide)
              · exact absurd hsum (by decide)
              · exact absurd hsum (by decide)
      · rw [mergeLoop_stop hguard] at h
        obtain ⟨h1, _⟩ := Prod.mk.injEq .. ▸ (Except.ok.inj h)
        rw [← h1]
        exact ⟨List.chain'_nil, by simp [emittedKeys]⟩

/-- C7: the primary keys of the emitted left- and right-marked data rows,
in emission order with the header and separator rows ignored, form a
non-decreasing sequence under the program's key comparison. -/
theorem emitted_keys_sorted (header : List String) (pks maxlen : List Nat)
    (A B : List (List String)) (evs : List Ev)
    (hA : sortedByPk pks A) (hB : sortedByPk pks B)
    (h : doEvents header pks maxlen A B = .ok evs) :
    List.Chain' pkLe (emittedKeys pks evs) := by
  unfold doEvents at h
  cases hml : mergeLoop pks maxlen A B (A.length + B.length) 0 0 none with
  | error e => rw [hml] at h; exact absurd h (by simp)
  | ok r =>
    obtain ⟨evs0, fi, fj⟩ := r
    rw [hml] at h
    simp only [Except.ok.injEq] at h
    rw [← h]
    have hhd : emittedKeys pks (Ev.mk ' ' header none :: evs0) = emittedKeys pks evs0 := by
      simp [emittedKeys, isDataEv]
    rw [hhd]
    exact (mergeLoop_chain hA hB (A.length + B.length) hml).1

/-- Closed witness for `emitted_keys_sorted`: tables [["1"],["3"]] and
[["2"]] interleave as 1, 2, 3. -/
theorem emitted_keys_sorted_witness :
    List.Chain' pkLe (emittedKeys [0]
      [Ev.mk ' ' ["k"] none,
       Ev.mk ' ' ["-"] none, Ev.mk '<' ["1"] none,
       Ev.mk ' ' ["-"] none, Ev.mk '>' ["2"] none,
       Ev.mk ' ' ["-"] none, Ev.mk '<' ["3"] none]) :=
  emitted_keys_sorted ["k"] [0] [1] [["1"], ["3"]] [["2"]]
    [Ev.mk ' ' ["k"] none,
     Ev.mk ' ' ["-"] none, Ev.mk '<' ["1"] none,
     Ev.mk ' ' ["-"] none, Ev.mk '>' ["2"] none,
     Ev.mk ' ' ["-"] none, Ev.mk '<' ["3"] none]
    (List.chain'_cons.mpr ⟨Or.inl (by decide), List.chain'_singleton _⟩)
    (List.chain'_singleton _) (by decide)

end PrettyCsvDiff
